import Mathlib

/-!
# Verified model of the `coarse-log-prob` quantized log-probability codec

Shallow embedding of `src/lib.rs`: the `CoarseLogProb` value type (a `u16`
code), conversion from `f32` (`From<f32>::from`), conversion back to `f32`
(`Into<f32>::into`), and the reversed comparison (`PartialOrd::partial_cmp`).

Modelling choices:
* An `f32` value is modelled by `F32`: a finite value carries its exact
  rational value; NaN and the two infinities are explicit constructors.
  The three `f32` literals of the source (`MIN_FLOAT_VAL`, `INCREMENT`,
  `INV_MFV`) are given as the exact rational values of the nearest IEEE-754
  binary32 numbers (e.g. `-87.33655f32` is exactly `-715461 / 2^13`).
* Multiplication comes in two variants. `F32.mul` idealizes finite products
  as exact rational multiplication; it backs the claims whose truth is
  insensitive to sub-ulp rounding of the intermediate products. `F32.mulR`
  is the faithful binary32 multiply: the exact product is re-rounded to
  nearest-even on the binary32 grid (`roundF32`), as the hardware does.
  `fromF32R` is the decode pipeline built on `F32.mulR`; it is the
  authority for the per-input code formula, where the idealization is
  observable (the exact-product formula is off by one at some inputs).
  Special operands follow IEEE-754 in both variants (NaN propagates,
  signed infinities by sign rules).
* `f32::round` is round-half-away-from-zero, modelled on the exact value.
* Rust's `as u16` float-to-integer cast truncates toward zero and saturates
  to `[0, 65535]`, with NaN mapped to `0`; `castU16` models exactly that.
* Machine `u16` codes are natural numbers (every constructed code is
  `≤ 65535`, proved as `code_le`).
-/

/-- Exact rational value of the binary32 literal `-87.33655f32`
(`MIN_FLOAT_VAL` in the source). -/
def MIN_FLOAT_VAL : ℚ := -715461 / 8192

/-- Exact rational value of the binary32 literal `0.0013326703f32`
(`INCREMENT` in the source). -/
def INCREMENT : ℚ := 11447551 / 8589934592

/-- Exact rational value of the binary32 literal `-0.01144996f32`
(`INV_MFV` in the source). -/
def INV_MFV : ℚ := -12294301 / 1073741824

/-- Model of an `f32` value: a finite value carries its exact rational
value; NaN and the infinities are explicit. -/
inductive F32 where
  | fin (q : ℚ)
  | inf
  | negInf
  | nan
deriving DecidableEq

/-- IEEE-754 `<` on `f32`: any comparison involving NaN is false. -/
def F32.blt : F32 → F32 → Bool
  | .nan, _ => false
  | _, .nan => false
  | .fin a, .fin b => decide (a < b)
  | .fin _, .inf => true
  | .fin _, .negInf => false
  | .inf, _ => false
  | .negInf, .negInf => false
  | .negInf, _ => true

/-- IEEE-754 `>=` on `f32`: any comparison involving NaN is false. -/
def F32.bge : F32 → F32 → Bool
  | .nan, _ => false
  | _, .nan => false
  | .fin a, .fin b => decide (b ≤ a)
  | .inf, _ => true
  | _, .inf => false
  | .fin _, .negInf => true
  | .negInf, .negInf => true
  | .negInf, .fin _ => false

/-- Idealized `f32` multiplication: NaN propagates, infinities follow sign
rules (`inf * 0` is NaN); finite products are kept exact (no binary32
re-rounding). `F32.mulR` below is the faithful variant. -/
def F32.mul : F32 → F32 → F32
  | .nan, _ => .nan
  | _, .nan => .nan
  | .fin a, .fin b => .fin (a * b)
  | .fin a, .inf => if 0 < a then .inf else if a < 0 then .negInf else .nan
  | .fin a, .negInf => if 0 < a then .negInf else if a < 0 then .inf else .nan
  | .inf, .fin b => if 0 < b then .inf else if b < 0 then .negInf else .nan
  | .negInf, .fin b => if 0 < b then .negInf else if b < 0 then .inf else .nan
  | .inf, .inf => .inf
  | .inf, .negInf => .negInf
  | .negInf, .inf => .negInf
  | .negInf, .negInf => .inf

/-- Round half away from zero on an exact rational, the rounding mode of
Rust's `f32::round`. -/
def roundHAZ (q : ℚ) : ℤ :=
  if 0 ≤ q then ⌊q + 1 / 2⌋ else -⌊-q + 1 / 2⌋

/-- `f32::round`: rounds finite values half away from zero; NaN and the
infinities are fixed points. -/
def F32.round : F32 → F32
  | .fin q => .fin ((roundHAZ q : ℤ) : ℚ)
  | .inf => .inf
  | .negInf => .negInf
  | .nan => .nan

/-- Rust's saturating `as u16` cast: truncate toward zero, clamp to
`[0, 65535]`, NaN to `0`, `+inf` to `65535`, `-inf` to `0`. -/
def castU16 : F32 → ℕ
  | .nan => 0
  | .inf => 65535
  | .negInf => 0
  | .fin q => (min 65535 (max 0 (if 0 ≤ q then ⌊q⌋ else ⌈q⌉))).toNat

/-- Round to nearest integer, ties to even, on an exact rational. -/
def rne (x : ℚ) : ℤ :=
  if x - ⌊x⌋ < 1 / 2 then ⌊x⌋
  else if 1 / 2 < x - ⌊x⌋ then ⌊x⌋ + 1
  else if ⌊x⌋ % 2 = 0 then ⌊x⌋ else ⌊x⌋ + 1

/-- Faithful IEEE-754 binary32 rounding (round to nearest, ties to even) of
an exact rational: the grid step at magnitude `|q|` is `2^(e - 23)` with
`e = max ⌊log2 |q|⌋ (-126)`, covering the normal and subnormal ranges.
Overflow to infinity is not modelled; it cannot arise in the decode
pipeline, whose products stay below `2^17`. -/
def roundF32 (q : ℚ) : ℚ :=
  if q = 0 then 0
  else
    rne (q / (2 : ℚ) ^ (max (Int.log 2 |q|) (-126) - 23)) *
      (2 : ℚ) ^ (max (Int.log 2 |q|) (-126) - 23)

/-- Faithful `f32` multiplication: as `F32.mul` on special operands, with
finite products re-rounded to nearest-even binary32. -/
def F32.mulR (a b : F32) : F32 :=
  match a, b with
  | .fin a, .fin b => .fin (roundF32 (a * b))
  | a, b => F32.mul a b

/-- The quantized log probability: a `u16` code (modelled as a natural
number; every constructed code is at most `65535`). -/
structure CoarseLogProb where
  code : ℕ
deriving DecidableEq

namespace CoarseLogProb

/-- `CoarseLogProb::MIN`: code `u16::MAX`. -/
def MIN : CoarseLogProb := ⟨65535⟩

/-- `CoarseLogProb::UNITY`: code `0`. -/
def UNITY : CoarseLogProb := ⟨0⟩

/-- `From<f32>::from`: clamp below `MIN_FLOAT_VAL` to `MIN`, clamp at and
above `0.0` to `UNITY`, otherwise round the scaled product and cast. -/
def fromF32 (value : F32) : CoarseLogProb :=
  if F32.blt value (F32.fin MIN_FLOAT_VAL) then
    MIN
  else if F32.bge value (F32.fin 0) then
    UNITY
  else
    ⟨castU16 (F32.round (F32.mul (F32.mul value (F32.fin INV_MFV)) (F32.fin 65535)))⟩

/-- `From<f32>::from` with the faithful binary32 multiplication `F32.mulR`:
the reference pipeline where intermediate f32 rounding is observable. -/
def fromF32R (value : F32) : CoarseLogProb :=
  if F32.blt value (F32.fin MIN_FLOAT_VAL) then
    MIN
  else if F32.bge value (F32.fin 0) then
    UNITY
  else
    ⟨castU16 (F32.round (F32.mulR (F32.mulR value (F32.fin INV_MFV)) (F32.fin 65535)))⟩

/-- `Into<f32>::into`: `0.0 - (code as f32 * INCREMENT)`, on exact values. -/
def intoF32 (self : CoarseLogProb) : ℚ :=
  0 - (self.code : ℚ) * INCREMENT

/-- `PartialOrd::partial_cmp`: the reverse of raw code order. -/
def partialCmp (self other : CoarseLogProb) : Option Ordering :=
  if self.code < other.code then
    some Ordering.gt
  else if self.code > other.code then
    some Ordering.lt
  else
    some Ordering.eq

end CoarseLogProb

/-! ### Helper lemmas -/

namespace CoarseLogProb

/-- The saturating cast of an exactly-integral finite value clamps the
integer to `[0, 65535]`. -/
lemma castU16_intCast (z : ℤ) : castU16 (F32.fin (z : ℚ)) = (min 65535 (max 0 z)).toNat := by
  by_cases h : (0 : ℚ) ≤ (z : ℚ) <;>
    simp [castU16, h, Int.floor_intCast, Int.ceil_intCast]

lemma castU16_le (v : F32) : castU16 v ≤ 65535 := by
  cases v with
  | fin q =>
    simp only [castU16]
    exact Int.toNat_le.mpr (min_le_left _ _)
  | inf => simp [castU16]
  | negInf => simp [castU16]
  | nan => simp [castU16]

/-- Every code produced by `fromF32` fits in a `u16`. -/
lemma code_le (v : F32) : (fromF32 v).code ≤ 65535 := by
  unfold fromF32
  split
  · simp [MIN]
  · split
    · simp [UNITY]
    · exact castU16_le _

lemma fromF32_fin_of_lt {q : ℚ} (h : q < MIN_FLOAT_VAL) :
    fromF32 (F32.fin q) = MIN := by
  simp [fromF32, F32.blt, h]

lemma fromF32_fin_of_nonneg {q : ℚ} (h : 0 ≤ q) :
    fromF32 (F32.fin q) = UNITY := by
  have h1 : ¬ q < MIN_FLOAT_VAL := by
    rw [MIN_FLOAT_VAL]; intro hc; linarith
  simp [fromF32, F32.blt, F32.bge, h1, h]

lemma fromF32_fin_mid {q : ℚ} (h1 : MIN_FLOAT_VAL ≤ q) (h2 : q < 0) :
    fromF32 (F32.fin q) =
      ⟨(min 65535 (max 0 (roundHAZ (q * INV_MFV * 65535)))).toNat⟩ := by
  simp [fromF32, F32.blt, F32.bge, not_lt.mpr h1, not_le.mpr h2,
    F32.mul, F32.round, castU16_intCast]

lemma fromF32R_fin_mid {q : ℚ} (h1 : MIN_FLOAT_VAL ≤ q) (h2 : q < 0) :
    fromF32R (F32.fin q) =
      ⟨(min 65535 (max 0
          (roundHAZ (roundF32 (roundF32 (q * INV_MFV) * 65535))))).toNat⟩ := by
  simp [fromF32R, F32.blt, F32.bge, not_lt.mpr h1, not_le.mpr h2,
    F32.mulR, F32.round, castU16_intCast]

end CoarseLogProb

/-- Characterization of `Int.log 2` on positive rationals by the binade
bounds, used to evaluate `roundF32` at concrete inputs. -/
lemma int_log2_eq {r : ℚ} (n : ℤ) (h0 : 0 < r)
    (h1 : (2 : ℚ) ^ n ≤ r) (h2 : r < (2 : ℚ) ^ (n + 1)) : Int.log 2 r = n := by
  have hb : (1 : ℕ) < 2 := by norm_num
  have ha : n ≤ Int.log 2 r := by
    refine (Int.zpow_le_iff_le_log hb h0).mp ?_
    exact_mod_cast h1
  have hc : Int.log 2 r < n + 1 := by
    refine (Int.lt_zpow_iff_log_lt hb h0).mp ?_
    exact_mod_cast h2
  omega

lemma roundHAZ_le (q : ℚ) : (roundHAZ q : ℚ) ≤ q + 1 / 2 := by
  unfold roundHAZ
  split
  · exact_mod_cast Int.floor_le _
  · push_cast
    have := Int.lt_floor_add_one (-q + 1 / 2)
    linarith

lemma le_roundHAZ (q : ℚ) : q - 1 / 2 ≤ (roundHAZ q : ℚ) := by
  unfold roundHAZ
  split
  · have := Int.lt_floor_add_one (q + 1 / 2)
    linarith
  · push_cast
    have := Int.floor_le (-q + 1 / 2)
    linarith

lemma roundHAZ_mono {x y : ℚ} (h : x ≤ y) : roundHAZ x ≤ roundHAZ y := by
  rcases eq_or_lt_of_le h with rfl | hlt
  · exact le_rfl
  · by_contra hc
    push_neg at hc
    have hc' : (roundHAZ y : ℚ) + 1 ≤ (roundHAZ x : ℚ) := by
      exact_mod_cast Int.add_one_le_iff.mpr hc
    have h1 := roundHAZ_le x
    have h2 := le_roundHAZ y
    linarith

open CoarseLogProb in
/-- C1: `partial_cmp` orders by implied real value, the reverse of raw code
order: `Greater` iff the left code is smaller, `Less` iff it is larger,
`Equal` iff the codes agree. -/
theorem partialCmp_reverses_code_order (a b : CoarseLogProb) :
    (partialCmp a b = some Ordering.gt ↔ a.code < b.code) ∧
    (partialCmp a b = some Ordering.lt ↔ b.code < a.code) ∧
    (partialCmp a b = some Ordering.eq ↔ a.code = b.code) := by
  refine ⟨?_, ?_, ?_⟩ <;> unfold partialCmp <;> split_ifs <;> simp_all <;> omega

open CoarseLogProb in
/-- C2: every finite input strictly below `MIN_FLOAT_VAL` (the exact value
of the literal `-87.33655f32`) decodes to the `MIN` constant, code 65535. -/
theorem fromF32_clamps_underflow (q : ℚ) (h : q < MIN_FLOAT_VAL) :
    fromF32 (F32.fin q) = MIN ∧ (fromF32 (F32.fin q)).code = 65535 := by
  refine ⟨fromF32_fin_of_lt h, ?_⟩
  rw [fromF32_fin_of_lt h]
  rfl

open CoarseLogProb in
/-- C2 witness at `-100`. -/
theorem fromF32_clamps_underflow_witness :
    (-100 : ℚ) < MIN_FLOAT_VAL ∧
      (fromF32 (F32.fin (-100)) = MIN ∧ (fromF32 (F32.fin (-100))).code = 65535) :=
  ⟨by norm_num [MIN_FLOAT_VAL],
    fromF32_clamps_underflow (-100) (by norm_num [MIN_FLOAT_VAL])⟩

open CoarseLogProb in
/-- C3: every finite input `>= 0.0`, the boundary `0.0` included, decodes
to the `UNITY` constant, code 0. -/
theorem fromF32_clamps_to_unity (q : ℚ) (h : 0 ≤ q) :
    fromF32 (F32.fin q) = UNITY ∧ (fromF32 (F32.fin q)).code = 0 := by
  refine ⟨fromF32_fin_of_nonneg h, ?_⟩
  rw [fromF32_fin_of_nonneg h]
  rfl

open CoarseLogProb in
/-- C3 witness at the boundary `0.0`. -/
theorem fromF32_clamps_to_unity_witness :
    (0 : ℚ) ≤ 0 ∧
      (fromF32 (F32.fin 0) = UNITY ∧ (fromF32 (F32.fin 0)).code = 0) :=
  ⟨le_refl 0, fromF32_clamps_to_unity 0 (le_refl 0)⟩

open CoarseLogProb in
/-- C8: `Into<f32>` is exactly `0.0 - code * INCREMENT`, total and
deterministic (it is a Lean function on all of `CoarseLogProb`). -/
theorem intoF32_formula (c : CoarseLogProb) :
    intoF32 c = 0 - (c.code : ℚ) * INCREMENT :=
  rfl

open CoarseLogProb in
/-- C10: the decode conversion is total on the special values: NaN falls
through both range comparisons into the rounding branch, where the
saturating cast sends NaN to code 0 (`UNITY`); `+inf` takes the `>= 0.0`
branch (`UNITY`); `-inf` takes the `< MIN_FLOAT_VAL` branch (`MIN`). -/
theorem fromF32_total_on_specials :
    fromF32 F32.nan = UNITY ∧ fromF32 F32.inf = UNITY ∧ fromF32 F32.negInf = MIN := by
  refine ⟨?_, ?_, ?_⟩ <;> rfl

/-- First faithful multiply at the input `-7078211 / 2^19`: the exact
product lies in the binade `[2^-3, 2^-2)`, the grid step is `2^-26`, and
nearest-even rounding gives `5186895 / 2^25`. -/
lemma roundF32_at_ce_step1 :
    roundF32 ((-7078211 / 524288 : ℚ) * INV_MFV) = 5186895 / 33554432 := by
  have hA : (-7078211 / 524288 : ℚ) * INV_MFV = 87021656575511 / 562949953421312 := by
    norm_num [INV_MFV]
  have hlog : Int.log 2 |(87021656575511 / 562949953421312 : ℚ)| = -3 := by
    rw [abs_of_pos (by norm_num)]
    exact int_log2_eq (-3) (by norm_num) (by norm_num) (by norm_num)
  rw [hA]
  unfold roundF32
  rw [if_neg (by norm_num), hlog]
  norm_num [rne]

/-- Second faithful multiply: the exact product `339923163825 / 2^25`
(≈ 10130.4997) lies in the binade `[2^13, 2^14)`, the grid step is
`2^-10`, and nearest-even rounding gives exactly `10130.5`. -/
lemma roundF32_at_ce_step2 :
    roundF32 ((5186895 / 33554432 : ℚ) * 65535) = 20261 / 2 := by
  have hB : (5186895 / 33554432 : ℚ) * 65535 = 339923163825 / 33554432 := by
    norm_num
  have hlog : Int.log 2 |(339923163825 / 33554432 : ℚ)| = 13 := by
    rw [abs_of_pos (by norm_num)]
    exact int_log2_eq 13 (by norm_num) (by norm_num) (by norm_num)
  rw [hB]
  unfold roundF32
  rw [if_neg (by norm_num), hlog]
  norm_num [rne]

open CoarseLogProb in
/-- C4 counterexample: at the representable f32 input `-7078211 / 2^19`
(≈ -13.5006161) the decode pipeline with faithful binary32 products yields
code 10131 (the second intermediate product rounds to exactly `10130.5`,
which `f32::round` takes to 10131), while `round(v * INV_MFV * 65535)`
on the exact product yields 10130: the per-input exact-product formula
does not hold of the program. -/
theorem fromF32_mid_exact_formula_refuted :
    (fromF32R (F32.fin (-7078211 / 524288))).code = 10131 ∧
    (min 65535 (max 0
        (roundHAZ ((-7078211 / 524288 : ℚ) * INV_MFV * 65535)))).toNat = 10130 ∧
    (fromF32R (F32.fin (-7078211 / 524288))).code ≠
      (min 65535 (max 0
        (roundHAZ ((-7078211 / 524288 : ℚ) * INV_MFV * 65535)))).toNat := by
  have h1 : MIN_FLOAT_VAL ≤ (-7078211 / 524288 : ℚ) := by norm_num [MIN_FLOAT_VAL]
  have h2 : (-7078211 / 524288 : ℚ) < 0 := by norm_num
  have hcode : (fromF32R (F32.fin (-7078211 / 524288))).code = 10131 := by
    rw [fromF32R_fin_mid h1 h2, roundF32_at_ce_step1, roundF32_at_ce_step2]
    norm_num [roundHAZ]
    rfl
  have hexact : (min 65535 (max 0
      (roundHAZ ((-7078211 / 524288 : ℚ) * INV_MFV * 65535)))).toNat = 10130 := by
    norm_num [roundHAZ, INV_MFV]
    rfl
  exact ⟨hcode, hexact, by rw [hcode, hexact]; norm_num⟩

open CoarseLogProb in
/-- C4 (amended): on the open middle range `MIN_FLOAT_VAL <= v < 0.0`, the
decoded code is `round(p)` (half away from zero, `f32::round`) of the
binary32 product `p = (v * INV_MFV) * 65535` — each multiply rounded to
nearest-even, as `f32` arithmetic performs it — put through the saturating
unsigned 16-bit cast. -/
theorem fromF32R_mid_formula (q : ℚ) (h1 : MIN_FLOAT_VAL ≤ q) (h2 : q < 0) :
    (fromF32R (F32.fin q)).code =
      (min 65535 (max 0
        (roundHAZ (roundF32 (roundF32 (q * INV_MFV) * 65535))))).toNat := by
  rw [fromF32R_fin_mid h1 h2]

open CoarseLogProb in
/-- C4 witness at `-10`. -/
theorem fromF32R_mid_formula_witness :
    MIN_FLOAT_VAL ≤ (-10 : ℚ) ∧ (-10 : ℚ) < 0 ∧
      (fromF32R (F32.fin (-10))).code =
        (min 65535 (max 0
          (roundHAZ (roundF32 (roundF32 ((-10) * INV_MFV) * 65535))))).toNat :=
  ⟨by norm_num [MIN_FLOAT_VAL], by norm_num,
    fromF32R_mid_formula (-10) (by norm_num [MIN_FLOAT_VAL]) (by norm_num)⟩

open CoarseLogProb in
/-- C5: decoding is monotonically non-increasing in code space: a smaller
(more negative) input never gets a smaller code. -/
theorem fromF32_code_antitone (q1 q2 : ℚ) (h12 : q1 ≤ q2) (h2 : q2 ≤ 0) :
    (fromF32 (F32.fin q2)).code ≤ (fromF32 (F32.fin q1)).code := by
  by_cases hq1 : q1 < MIN_FLOAT_VAL
  · rw [fromF32_fin_of_lt hq1]
    exact code_le _
  · push_neg at hq1
    rcases lt_or_le q2 0 with hz | hz
    · have hq1' : q1 < 0 := lt_of_le_of_lt h12 hz
      have hq2' : MIN_FLOAT_VAL ≤ q2 := le_trans hq1 h12
      rw [fromF32_fin_mid hq1 hq1', fromF32_fin_mid hq2' hz]
      have hm1 : q2 * INV_MFV ≤ q1 * INV_MFV :=
        mul_le_mul_of_nonpos_right h12 (by norm_num [INV_MFV])
      have hm2 : q2 * INV_MFV * 65535 ≤ q1 * INV_MFV * 65535 :=
        mul_le_mul_of_nonneg_right hm1 (by norm_num)
      have hr := roundHAZ_mono hm2
      exact Int.toNat_le_toNat (min_le_min le_rfl (max_le_max le_rfl hr))
    · have hz' : q2 = 0 := le_antisymm h2 hz
      rw [hz', fromF32_fin_of_nonneg le_rfl]
      exact Nat.zero_le _

open CoarseLogProb in
/-- C5 witness at `-2 <= -1 <= 0`. -/
theorem fromF32_code_antitone_witness :
    (-2 : ℚ) ≤ -1 ∧ (-1 : ℚ) ≤ 0 ∧
      (fromF32 (F32.fin (-1))).code ≤ (fromF32 (F32.fin (-2))).code :=
  ⟨by norm_num, by norm_num,
    fromF32_code_antitone (-2) (-1) (by norm_num) (by norm_num)⟩

open CoarseLogProb in
/-- C7: the four boundary literals decode exactly as the unit tests state:
`0.0 -> 0`, `-10.0 -> 7504`, `-87.33655 -> 65535`, `-100.0 -> 65535`. -/
theorem fromF32_boundary_literals :
    (fromF32 (F32.fin 0)).code = 0 ∧
    (fromF32 (F32.fin (-10))).code = 7504 ∧
    (fromF32 (F32.fin MIN_FLOAT_VAL)).code = 65535 ∧
    (fromF32 (F32.fin (-100))).code = 65535 := by
  refine ⟨?_, ?_, ?_, ?_⟩
  · rw [fromF32_fin_of_nonneg le_rfl]
    rfl
  · rw [fromF32_fin_mid (by norm_num [MIN_FLOAT_VAL]) (by norm_num)]
    norm_num [roundHAZ, INV_MFV]
    rfl
  · rw [fromF32_fin_mid le_rfl (by norm_num [MIN_FLOAT_VAL])]
    norm_num [roundHAZ, INV_MFV, MIN_FLOAT_VAL]
    rfl
  · rw [fromF32_fin_of_lt (by norm_num [MIN_FLOAT_VAL])]
    rfl

open CoarseLogProb in
/-- C9: `encode(UNITY)` is exactly `0.0`, and `encode(MIN)` is within one
`INCREMENT` of `-87.33655`. -/
theorem encode_constants_consistent :
    intoF32 UNITY = 0 ∧ |intoF32 MIN - MIN_FLOAT_VAL| ≤ INCREMENT := by
  constructor
  · norm_num [intoF32, UNITY]
  · have hneg : intoF32 MIN - MIN_FLOAT_VAL < 0 := by
      norm_num [intoF32, MIN, MIN_FLOAT_VAL, INCREMENT]
    rw [abs_of_neg hneg]
    norm_num [intoF32, MIN, MIN_FLOAT_VAL, INCREMENT]

open CoarseLogProb in
/-- C6: approximate round-trip: for every in-range value
`MIN_FLOAT_VAL <= v <= 0.0`, re-encoding the decoded code lands within one
`INCREMENT` of the input. -/
theorem roundtrip_within_increment (q : ℚ) (h1 : MIN_FLOAT_VAL ≤ q) (h2 : q ≤ 0) :
    |intoF32 (fromF32 (F32.fin q)) - q| ≤ INCREMENT := by
  rcases eq_or_lt_of_le h2 with rfl | hq
  · rw [fromF32_fin_of_nonneg le_rfl]
    norm_num [intoF32, UNITY, INCREMENT]
  · rw [fromF32_fin_mid h1 hq]
    set t : ℚ := q * INV_MFV * 65535 with ht
    set r : ℤ := roundHAZ t with hr
    have hiv : (INV_MFV : ℚ) ≤ 0 := by norm_num [INV_MFV]
    have ht0 : 0 ≤ t := by
      rw [ht]
      exact mul_nonneg (mul_nonneg_of_nonpos_of_nonpos h2 hiv) (by norm_num)
    have htmax : t ≤ 65535 := by
      rw [ht]
      calc q * INV_MFV * 65535
          ≤ MIN_FLOAT_VAL * INV_MFV * 65535 :=
            mul_le_mul_of_nonneg_right (mul_le_mul_of_nonpos_right h1 hiv) (by norm_num)
        _ ≤ 65535 := by norm_num [MIN_FLOAT_VAL, INV_MFV]
    have hup := roundHAZ_le t
    have hlo := le_roundHAZ t
    rw [← hr] at hup hlo
    have hr0 : 0 ≤ r := by
      by_contra hc
      push_neg at hc
      have h3 : r ≤ -1 := by omega
      have h4 : (r : ℚ) ≤ -1 := by exact_mod_cast h3
      linarith
    have hr65535 : r ≤ 65535 := by
      by_contra hc
      push_neg at hc
      have h3 : (65536 : ℤ) ≤ r := by omega
      have h4 : (65536 : ℚ) ≤ (r : ℚ) := by exact_mod_cast h3
      linarith
    rw [max_eq_right hr0, min_eq_right hr65535]
    have hcast : ((r.toNat : ℕ) : ℚ) = (r : ℚ) := by
      exact_mod_cast Int.toNat_of_nonneg hr0
    simp only [intoF32, hcast]
    have key : 0 - (r : ℚ) * INCREMENT - q =
        (t - r) * INCREMENT - q * (INV_MFV * 65535 * INCREMENT + 1) := by
      rw [ht]; ring
    rw [key]
    have hb1 : |t - (r : ℚ)| ≤ 1 / 2 := abs_le.mpr ⟨by linarith, by linarith⟩
    have hq' : |q| ≤ 715461 / 8192 := by
      rw [abs_of_nonpos h2]
      rw [MIN_FLOAT_VAL] at h1
      linarith
    have habs : |(t - (r : ℚ)) * INCREMENT - q * (INV_MFV * 65535 * INCREMENT + 1)| ≤
        |(t - (r : ℚ)) * INCREMENT| + |q * (INV_MFV * 65535 * INCREMENT + 1)| := by
      rw [sub_eq_add_neg]
      exact (abs_add _ _).trans (by rw [abs_neg])
    have e1 : |(t - (r : ℚ)) * INCREMENT| ≤ (1 / 2) * INCREMENT := by
      rw [abs_mul, abs_of_nonneg (show (0 : ℚ) ≤ INCREMENT by norm_num [INCREMENT])]
      exact mul_le_mul_of_nonneg_right hb1 (by norm_num [INCREMENT])
    have e2 : |q * (INV_MFV * 65535 * INCREMENT + 1)| ≤
        (715461 / 8192) * |INV_MFV * 65535 * INCREMENT + 1| := by
      rw [abs_mul]
      exact mul_le_mul_of_nonneg_right hq' (abs_nonneg _)
    have e3 : (1 / 2 : ℚ) * INCREMENT +
        (715461 / 8192) * |INV_MFV * 65535 * INCREMENT + 1| ≤ INCREMENT := by
      rw [abs_of_neg (by norm_num [INV_MFV, INCREMENT])]
      norm_num [INV_MFV, INCREMENT]
    linarith

open CoarseLogProb in
/-- C6 witness at `-10`. -/
theorem roundtrip_within_increment_witness :
    MIN_FLOAT_VAL ≤ (-10 : ℚ) ∧ (-10 : ℚ) ≤ 0 ∧
      |intoF32 (fromF32 (F32.fin (-10))) - (-10)| ≤ INCREMENT :=
  ⟨by norm_num [MIN_FLOAT_VAL], by norm_num,
    roundtrip_within_increment (-10) (by norm_num [MIN_FLOAT_VAL]) (by norm_num)⟩
